import Mathlib

/-!
# Verification of `spec2cpp`'s specwriter (knut repository)

A shallow embedding of `src/tools/spec2cpp/specwriter.cpp` — the model-to-code
derivation engine that turns an LSP meta-model into C++ declarations and JSON
bindings — together with proofs settling the specification claims.

Modelling conventions:
* `QString` is modelled as Lean `String`; all Qt string operations used by the
  source (`remove(QChar)`, `remove(const QString&)`, `contains(QChar)`,
  `startsWith(QChar)`, `replace(QChar, QChar)`, `split(QChar)`, `join`,
  `arg`) are re-implemented over the underlying character list so that every
  definition evaluates by kernel reduction.  `QChar::toUpper` is modelled on
  the ASCII range (the enum identifiers the tool processes are ASCII).
* C++ in-place mutation becomes explicit state passing: each writer function
  takes the data it reads and returns the text (or the updated model).
* Recursion that in C++ walks a finite object tree (child interfaces,
  union/literal items, `extends` chains) is given an explicit fuel parameter
  so that the definitions stay structurally recursive and computable; the
  theorems quantify over sufficient fuel.
* The `while` loop of `writeTypesAndInterfaces` becomes a step function plus
  a fuel-indexed runner; a run that exhausts any amount of fuel corresponds
  to the C++ loop never terminating.
-/

namespace Specwriter

/-- `QChar::toUpper` restricted to ASCII: maps `'a'..'z'` to `'A'..'Z'`,
leaves every other character unchanged. -/
def qToUpper (c : Char) : Char :=
  if 97 ≤ c.toNat ∧ c.toNat ≤ 122 then Char.ofNat (c.toNat - 32) else c

/-- `s[0] = s[0].toUpper()` as done by `cleanCode` on enum value names and
numeric literals.  Qt asserts on an empty string; the model leaves the empty
string unchanged. -/
def capFirst (s : String) : String :=
  match s.data with
  | [] => s
  | c :: cs => ⟨qToUpper c :: cs⟩

/-- `QString::remove(QChar)`: removes every occurrence of the character. -/
def removeChar (c : Char) (s : String) : String :=
  ⟨s.data.filter (fun x => x != c)⟩

/-- `QString::contains(QChar)`. -/
def containsChar (c : Char) (s : String) : Bool :=
  s.data.contains c

/-- `QString::startsWith(QChar)`. -/
def startsWithChar (c : Char) (s : String) : Bool :=
  match s.data with
  | [] => false
  | x :: _ => x == c

/-- `QString::replace(QChar, QChar)`. -/
def replaceChar (a b : Char) (s : String) : String :=
  ⟨s.data.map (fun c => if c == a then b else c)⟩

/-- Worker for `removeSubstr`, structurally recursive on a fuel argument
(one unit of fuel is spent per inspected position, and a position is never
inspected twice, so `l.length` fuel always suffices). -/
def removeSubListAux (pat : List Char) : Nat → List Char → List Char
  | 0, l => l
  | _ + 1, [] => []
  | fuel + 1, c :: rest =>
    if pat.isPrefixOf (c :: rest) ∧ ¬ pat.isEmpty then
      removeSubListAux pat fuel ((c :: rest).drop pat.length)
    else
      c :: removeSubListAux pat fuel rest

/-- `QString::remove(const QString&)`: removes every occurrence of the
(non-empty) pattern, scanning left to right and resuming at the removal
position. -/
def removeSubstr (pat s : String) : String :=
  ⟨removeSubListAux pat.data s.data.length s.data⟩

/-- Worker for `splitChar`: accumulates the current part in reverse. -/
def splitCharAux (sep : Char) : List Char → List Char → List String
  | acc, [] => [⟨acc.reverse⟩]
  | acc, c :: rest =>
    if c == sep then ⟨acc.reverse⟩ :: splitCharAux sep [] rest
    else splitCharAux sep (c :: acc) rest

/-- `QString::split(QChar)` with Qt's default `KeepEmptyParts`: always
returns at least one (possibly empty) part. -/
def splitChar (sep : Char) (s : String) : List String :=
  splitCharAux sep [] s.data

/-- `QStringList::join(sep)`. -/
def joinSep (sep : String) : List String → String
  | [] => ""
  | [x] => x
  | x :: xs => x ++ sep ++ joinSep sep xs

/-! ## The dependency resolver (`writeTypesAndInterfaces`, lines 220–278)

The emission loop of `SpecWriter::writeTypesAndInterfaces` reads only the
`name` and `dependencies` members of `Data::Type` / `Data::Interface`; its
emission order is modelled over that view.  The preliminary
`std::ranges::sort` call uses `!lhs.dependencies.contains(rhs.name)`, which
is not a strict weak order, so its result is unspecified; per the spec it is
a performance heuristic only, and the theorems below quantify over arbitrary
list order, covering every possible outcome of that pre-sort. -/

/-- Name/dependency view of one type alias or interface. -/
structure Entity where
  name : String
  deps : List String
deriving DecidableEq, Repr

/-- End-of-wave dependency cleanup: `it->dependencies.removeAll(name)` for
every name emitted this wave. -/
def pruneEntity (names : List String) (e : Entity) : Entity :=
  { e with deps := e.deps.filter (fun d => !names.contains d) }

/-- Loop state: entities emitted so far plus the remaining types and
interfaces (the iterator ranges `startType..end` / `startStruct..end`). -/
structure ResolveState where
  emitted : List Entity
  types : List Entity
  interfaces : List Entity
deriving DecidableEq, Repr

/-- One iteration of the `while` loop: `std::stable_partition` both remaining
ranges on empty-dependency-set, emit the zero-dependency types (in order)
then the zero-dependency interfaces (in order), and remove every emitted
name from the dependency sets of the remaining entities. -/
def resolveStep (s : ResolveState) : ResolveState :=
  let zt := s.types.filter (fun e => e.deps.isEmpty)
  let rt := s.types.filter (fun e => !e.deps.isEmpty)
  let zi := s.interfaces.filter (fun e => e.deps.isEmpty)
  let ri := s.interfaces.filter (fun e => !e.deps.isEmpty)
  let names := (zt ++ zi).map Entity.name
  { emitted := s.emitted ++ zt ++ zi
    types := rt.map (pruneEntity names)
    interfaces := ri.map (pruneEntity names) }

/-- Fuel-indexed runner for the loop.  `none` means the given amount of fuel
was not enough; since a stuck iteration leaves the state unchanged, `none`
for every fuel corresponds to the C++ loop spinning forever. -/
def resolveRun (fuel : Nat) (s : ResolveState) : Option (List Entity) :=
  if s.types.isEmpty ∧ s.interfaces.isEmpty then some s.emitted
  else
    match fuel with
    | 0 => none
    | f + 1 => resolveRun f (resolveStep s)

/-- Emission order of `writeTypesAndInterfaces`: run the wave/prune loop to
completion (each productive wave emits at least one entity, so
`types.length + interfaces.length` fuel is enough whenever the loop
terminates at all). -/
def resolveOrder (types interfaces : List Entity) : Option (List Entity) :=
  resolveRun (types.length + interfaces.length)
    { emitted := [], types := types, interfaces := interfaces }

/-! ## The table-driven model (`SpecWriter::Data`) and its writers -/

/-- One enumerator of `Data::Enumeration`. -/
structure EnumValue where
  name : String
  value : String
  comment : String
deriving DecidableEq, Repr

/-- `Data::Enumeration`. -/
structure Enumeration where
  name : String
  isString : Bool
  values : List EnumValue
  comment : String
deriving DecidableEq, Repr

/-- `Data::Type` (a type alias). -/
structure DataType where
  name : String
  dataType : String
  comment : String
  dependencies : List String
deriving DecidableEq, Repr

def DataType.setDependencies (t : DataType) (deps : List String) : DataType :=
  { t with dependencies := deps }

/-- `Data::Interface::Property`. -/
structure Property where
  name : String
  dataType : String
  comment : String
deriving DecidableEq, Repr

/-- `Data::Interface`: interfaces nest recursively through `children`. -/
inductive Interface where
  | mk (name comment : String) (extendsList : List String)
      (properties : List Property) (children : List Interface)
      (dependencies : List String) : Interface
deriving Repr

def Interface.name : Interface → String
  | ⟨n, _, _, _, _, _⟩ => n

def Interface.comment : Interface → String
  | ⟨_, c, _, _, _, _⟩ => c

def Interface.extendsList : Interface → List String
  | ⟨_, _, e, _, _, _⟩ => e

def Interface.properties : Interface → List Property
  | ⟨_, _, _, p, _, _⟩ => p

def Interface.children : Interface → List Interface
  | ⟨_, _, _, _, c, _⟩ => c

def Interface.dependencies : Interface → List String
  | ⟨_, _, _, _, _, d⟩ => d

def Interface.setDependencies (i : Interface) (deps : List String) : Interface :=
  match i with
  | ⟨n, c, e, p, ch, _⟩ => ⟨n, c, e, p, ch, deps⟩

/-- `Data::Notification`. -/
structure Notification where
  method : String
  params : String
deriving DecidableEq, Repr

/-- `Data::Request`. -/
structure Request where
  method : String
  params : String
  result : String
  error : String
deriving DecidableEq, Repr

/-- The root `Data` model consumed by `SpecWriter`. -/
structure Data where
  notifications : List Notification
  requests : List Request
  enumerations : List Enumeration
  types : List DataType
  interfaces : List Interface
deriving Repr

/-- `methodToName` (line 19): split the wire method on `/`, drop a leading
`$` / `window` / `client` segment, capitalize each remaining segment and
concatenate. -/
def methodToName (method : String) : String :=
  let names := splitChar '/' method
  let names :=
    if names.head? = some "$" ∨ names.head? = some "window" ∨ names.head? = some "client"
    then names.tail else names
  String.join (names.map capFirst)

/-- The `NotificationImpl` template with `%1`–`%3` substituted. -/
def notificationImpl (name method params : String) : String :=
  "\ninline constexpr char " ++ name ++ "Name[] = \"" ++ method ++
    "\";\nstruct " ++ name ++ "Notification : public NotificationMessage<" ++
    name ++ "Name, " ++ params ++ ">\n{};\n"

/-- The `RequestImpl` template with `%1`–`%5` substituted. -/
def requestImpl (name method params result error : String) : String :=
  "\ninline constexpr char " ++ name ++ "Name[] = \"" ++ method ++
    "\";\nstruct " ++ name ++ "Request : public RequestMessage<" ++ name ++
    "Name, " ++ params ++ ", " ++ result ++ ", " ++ error ++ ">\n{};\n"

/-- Body text of the notifications artifact. -/
def notificationsText (notifications : List Notification) : String :=
  String.join (notifications.map
    (fun n => notificationImpl (methodToName n.method) n.method n.params))

/-- Body text of the requests artifact. -/
def requestsText (requests : List Request) : String :=
  String.join (requests.map
    (fun r => requestImpl (methodToName r.method) r.method r.params r.result r.error))

/-- The `NotificationHeader` template with `%1` substituted. -/
def notificationHeaderWrap (text : String) : String :=
  "// File generated by spec2cpp tool\n// DO NOT MAKE ANY CHANGES HERE\n\n#pragma once\n\n#include \"notificationmessage.h\"\n#include \"types.h\"\n\nnamespace Lsp \x7b\n" ++
    text ++ "\n\x7d\n"

/-- The `RequestHeader` template with `%1` substituted. -/
def requestHeaderWrap (text : String) : String :=
  "// File generated by spec2cpp tool\n// DO NOT MAKE ANY CHANGES HERE\n\n#pragma once\n\n#include \"requestmessage.h\"\n#include \"types.h\"\n\nnamespace Lsp \x7b\n" ++
    text ++ "\n\x7d\n"

/-- The `CodeHeader` template with `%1` substituted. -/
def codeHeaderWrap (text : String) : String :=
  "// File generated by spec2cpp tool\n// DO NOT MAKE ANY CHANGES HERE\n\n#pragma once\n\n#include <nlohmann/json.hpp>\n\n#include <memory>\n#include <optional>\n#include <string>\n#include <tuple>\n#include <unordered_map>\n#include <variant>\n\nnamespace Lsp \x7b\n" ++
    text ++ "\n\x7d\n"

/-- The `CodeJsonHeader` template with `%1` substituted. -/
def codeJsonHeaderWrap (text : String) : String :=
  "// File generated by spec2cpp tool\n// DO NOT MAKE ANY CHANGES HERE\n\n#pragma once\n\n#include \"json.h\"\n#include \"types.h\"\n\nnamespace Lsp \x7b\n" ++
    text ++ "\n\x7d\n"

/-- Caller-observable outcome of one artifact write.  `QFile::open` success
is an input (`openOk`): the writers are `void` functions, and on open
failure they execute a bare `return;` — modelled by `silentSkip`, which
carries no error information because the source produces none. -/
inductive WriteOutcome where
  | wroteFile (content : String)
  | silentSkip
deriving DecidableEq, Repr

/-- `SpecWriter::saveNotifications` (lines 56–70): open the file; on failure
return silently, otherwise assemble and write the artifact. -/
def saveNotifications (openOk : Bool) (notifications : List Notification) : WriteOutcome :=
  if openOk then .wroteFile (notificationHeaderWrap (notificationsText notifications))
  else .silentSkip

/-- `SpecWriter::saveRequests` (lines 96–110). -/
def saveRequests (openOk : Bool) (requests : List Request) : WriteOutcome :=
  if openOk then .wroteFile (requestHeaderWrap (requestsText requests))
  else .silentSkip

/-- `saveCode` (lines 144–173 / 535–564): writes `types.h` then
`types_json.h`.  The body texts (assembled from `writeEnums`,
`writeTypesAndInterfaces` and the JSON writers) are parameters here; the
definition captures the control flow: an open failure on the first file
returns from `saveCode` before the second file is even attempted, and an
open failure on the second file skips only that file — in both cases with a
bare `return;` and no error report. -/
def saveCode (openTypesOk openJsonOk : Bool) (typesText jsonText : String) :
    WriteOutcome × WriteOutcome :=
  if openTypesOk then
    if openJsonOk then
      (.wroteFile (codeHeaderWrap typesText), .wroteFile (codeJsonHeaderWrap jsonText))
    else
      (.wroteFile (codeHeaderWrap typesText), .silentSkip)
  else
    (.silentSkip, .silentSkip)

/-- `SpecWriter::writeType` (lines 286–292): the three primitive alias names
render as the empty string; every other alias renders as the `TypeImpl`
using-declaration. -/
def writeType (type : DataType) : String :=
  if type.name = "integer" ∨ type.name = "uinteger" ∨ type.name = "decimal" then ""
  else "\n" ++ type.comment ++ "using " ++ type.name ++ " = " ++ type.dataType ++ ";\n"

/-- `writeProperty` (lines 294–313): strips `"readonly "` from the name,
then renders, in this order of precedence: a `std::unique_ptr` field when
the type equals the enclosing interface name, a `std::optional` field when
the name carries `?`, a static string constant when the type is a quoted
literal, and a plain field otherwise. -/
def writeProperty (property : Property) (interface : String) : String :=
  let name := removeSubstr "readonly " property.name
  let isOptional := containsChar '?' property.name
  let isConstString := startsWithChar '\'' property.dataType
  let isPtr := property.dataType = interface
  if isPtr then
    property.comment ++ "std::unique_ptr<" ++ property.dataType ++ "> " ++
      removeChar '?' name ++ ";\n"
  else if isOptional then
    property.comment ++ "std::optional<" ++ property.dataType ++ "> " ++
      removeChar '?' name ++ ";\n"
  else if isConstString then
    property.comment ++ "static inline const std::string " ++ name ++ " = " ++
      replaceChar '\'' '"' property.dataType ++ ";\n"
  else
    property.comment ++ property.dataType ++ " " ++ name ++ ";\n"

/-- `interfaceProperties` (lines 357–376): own property names with `?` and
`"readonly "` stripped, in declared order, then, for each `extends` entry in
order, the flattened list of the first interface of that name (nothing when
the name resolves to no interface in the list).  The C++ recursion is
unbounded; `fuel` bounds the recursion depth, and the theorems show the
result is fuel-independent once `fuel` exceeds the extends-chain height. -/
def interfaceProperties : Nat → Interface → List Interface → List String
  | 0, _, _ => []
  | fuel + 1, interface, interfaces =>
    interface.properties.map (fun prop => removeSubstr "readonly " (removeChar '?' prop.name))
      ++ interface.extendsList.flatMap (fun ext =>
          match interfaces.find? (fun i => i.name == ext) with
          | some it => interfaceProperties fuel it interfaces
          | none => [])

/-- The hand-written-exception set of `writeJsonInterface`. -/
def jsonExceptions : List String :=
  ["SelectionRange", "FormattingOptions", "ChangeAnnotationsType"]

/-- `SpecWriter::writeJsonInterface` (lines 378–400): interfaces in the
exception set yield only a `JSONIFY_FWD` forward declaration; otherwise the
children's bindings are emitted first, then the interface's own
`JSONIFY`/`JSONIFY_EMPTY` binding keyed by the `parent::child` scoped name.
`fuel` bounds the child-nesting and extends-chain depth. -/
def writeJsonInterface (interfaces : List Interface) : Nat → Interface → List String → String
  | 0, _, _ => ""
  | fuel + 1, interface, parent =>
    let parentNames := parent ++ [interface.name]
    if jsonExceptions.contains interface.name then
      "\nJSONIFY_FWD(" ++ joinSep "::" parentNames ++ ")\n"
    else
      let head := if parentNames.length = 1 then "\n" else ""
      let properties := interfaceProperties (fuel + 1) interface interfaces
      let childrenText := String.join (interface.children.map
        (fun child => writeJsonInterface interfaces fuel child parentNames))
      if properties.isEmpty then
        head ++ childrenText ++ "JSONIFY_EMPTY(" ++ joinSep "::" parentNames ++ ")\n"
      else
        head ++ childrenText ++ "JSONIFY(" ++ joinSep "::" parentNames ++ ", " ++
          joinSep ", " properties ++ ")\n"

/-! ## The tree-structured model (`MetaSpecWriter`, lines 490–891)

Only the parts the claims need: `MetaData::TypePtr` objects as a recursive
tree, and `MetaSpecWriter::writeProperty` with its union reordering.  The
`MetaData` declarations live outside the provided sources; the fields below
are exactly the ones `specwriter.cpp` reads (`name`, `value`,
`documentation`, `since`, `is_deprecated()`, `kind`, `items`). -/

/-- The `MetaData::TypeKind` values `specwriter.cpp` inspects; every other
kind is collapsed into `Other`, which the inspected branches treat
uniformly. -/
inductive TypeKind where
  | Reference
  | StringLiteral
  | Or
  | Other
deriving DecidableEq, Repr

/-- A `MetaData::TypePtr` node. -/
inductive MetaType where
  | mk (name value documentation since : String) (deprecated : Bool)
      (kind : TypeKind) (items : List MetaType) : MetaType
deriving Repr

def MetaType.name : MetaType → String
  | ⟨n, _, _, _, _, _, _⟩ => n

def MetaType.value : MetaType → String
  | ⟨_, v, _, _, _, _, _⟩ => v

def MetaType.documentation : MetaType → String
  | ⟨_, _, d, _, _, _, _⟩ => d

def MetaType.since : MetaType → String
  | ⟨_, _, _, s, _, _, _⟩ => s

def MetaType.deprecated : MetaType → Bool
  | ⟨_, _, _, _, d, _, _⟩ => d

def MetaType.kind : MetaType → TypeKind
  | ⟨_, _, _, _, _, k, _⟩ => k

def MetaType.items : MetaType → List MetaType
  | ⟨_, _, _, _, _, _, i⟩ => i

/-- The `fetchType` lambda of `MetaSpecWriter::writeProperty` (lines
663–674): a `Reference` item is resolved against the root types by name
(first match), anything else — or an unresolved reference — stands for
itself. -/
def fetchType (rootTypes : List MetaType) (type : MetaType) : MetaType :=
  if type.kind = TypeKind.Reference then
    match rootTypes.find? (fun v => type.value == v.name) with
    | some v => v
    | none => type
  else type

/-- Sort key of the union comparator
`make_tuple(!lhs->is_deprecated(), lhs->since) < make_tuple(...)`:
lexicographic on (`!deprecated`, `since`), where `false < true` on `bool`
and `QString::operator<` compares character sequences lexicographically.
Because `!deprecated` is compared ascending, *deprecated* alternatives
(`!deprecated = false`) order first. -/
def altKey (rootTypes : List MetaType) (t : MetaType) : Bool ×ₗ List Char :=
  let ft := fetchType rootTypes t
  toLex (!ft.deprecated, ft.since.data)

/-- The comparator of the union-alternative sort, in `≤` form. -/
def altLE (rootTypes : List MetaType) (a b : MetaType) : Prop :=
  altKey rootTypes a ≤ altKey rootTypes b

instance (rootTypes : List MetaType) : DecidableRel (altLE rootTypes) :=
  fun a b => inferInstanceAs (Decidable (altKey rootTypes a ≤ altKey rootTypes b))

/-- The `std::ranges::sort(property->items, ...)` call (lines 677–682).
`std::sort` guarantees only sortedness with respect to the comparator and
leaves the order of tie-breaking unspecified; the model fixes one
conforming execution (a stable insertion sort with the same comparator). -/
def sortAlts (rootTypes : List MetaType) (items : List MetaType) : List MetaType :=
  List.insertionSort (altLE rootTypes) items

/-- `MetaSpecWriter::writeProperty` (lines 653–710).  `fuel` bounds the
depth of the literal-items recursion (the C++ recursion walks the finite
item tree).  For an `Or` property the items are reordered by the comparator
and the value is rewritten to `std::variant<...>` over the reordered items;
for a string-literal property with items, each item's rendering is appended
to the documentation; the final branch chain renders, in precedence order,
a self-reference box, an optional, a string constant, or a plain field. -/
def writePropertyMeta (rootTypes : List MetaType) : Nat → MetaType → String → String
  | 0, _, _ => ""
  | fuel + 1, property, interface =>
    let isOptional := containsChar '?' property.name
    let isConstString := property.kind = TypeKind.StringLiteral
    let isPtr := property.value = interface
    let value :=
      if property.kind = TypeKind.Or then
        "std::variant<" ++ joinSep ", " ((sortAlts rootTypes property.items).map MetaType.value) ++ ">"
      else property.value
    let documentation :=
      if isConstString ∧ ¬ property.items.isEmpty then
        property.documentation ++ String.join (property.items.map
          (fun item => writePropertyMeta rootTypes fuel item interface))
      else property.documentation
    if isPtr then
      documentation ++ "std::unique_ptr<" ++ value ++ "> " ++ removeChar '?' property.name ++ ";\n"
    else if isOptional then
      documentation ++ "std::optional<" ++ value ++ "> " ++ removeChar '?' property.name ++ ";\n"
    else if isConstString then
      documentation ++ "static inline const std::string " ++ property.name ++ " = \"" ++ value ++ "\";\n"
    else
      documentation ++ value ++ " " ++ property.name ++ ";\n"

/-- The documentation text `writePropertyMeta` attaches to a property: for a
string-literal property with items, the renderings of all items are
appended (lines 693–698); otherwise the documentation is unchanged. -/
def metaDocText (rootTypes : List MetaType) (fuel : Nat) (property : MetaType)
    (interface : String) : String :=
  if property.kind = TypeKind.StringLiteral ∧ ¬ property.items.isEmpty then
    property.documentation ++ String.join (property.items.map
      (fun item => writePropertyMeta rootTypes fuel item interface))
  else property.documentation

/-! ## The normalizer (`SpecWriter::cleanCode`, lines 402–488) -/

/-- The rename table `specialEnumNames`. -/
def renameEnum (name : String) : String :=
  if name = "InitializeError" then "InitializeErrorCodes" else name

/-- Per-value cleanup: capitalize the name's first character; strip quotes
from string-enum literals, capitalize numeric literals. -/
def cleanEnumValue (isString : Bool) (v : EnumValue) : EnumValue :=
  { v with
    name := capFirst v.name
    value := if isString then removeChar '\'' v.value else capFirst v.value }

/-- Per-enumeration cleanup: apply the rename table and clean every value. -/
def cleanEnum (e : Enumeration) : Enumeration :=
  { e with
    name := renameEnum e.name
    values := e.values.map (cleanEnumValue e.isString) }

/-- Deduplication of enumerations by name, keeping the first occurrence
(the `std::ranges::remove_if` with the stateful `enumSet` lambda). -/
def dedupeEnums (seen : List String) : List Enumeration → List Enumeration
  | [] => []
  | e :: rest =>
    if seen.contains e.name then dedupeEnums seen rest
    else e :: dedupeEnums (e.name :: seen) rest

/-- The framework-reserved exclusion set `removeStructNames`. -/
def removeStructNames : List String :=
  ["Message", "RequestMessage", "ResponseMessage", "ResponseError",
   "NotificationMessage", "LSPObject", "T"]

/-- The type exclusion set `removeTypeNames`. -/
def removeTypeNames : List String := ["LSPAny"]

/-- `SpecWriter::cleanCode`: dedupe enumerations; rename and clean them;
drop framework-reserved interfaces and excluded types; drop aliases shadowed
by an enumeration or interface name; prune enumeration names from every
remaining dependency set. -/
def cleanEnums (enums : List Enumeration) : List Enumeration :=
  (dedupeEnums [] enums).map cleanEnum

/-- The interface list after the "Remove some specific struct" block. -/
def cleanInterfacesKept (interfaces : List Interface) : List Interface :=
  interfaces.filter (fun i => !removeStructNames.contains i.name)

/-- The type list after the "Remove some types" and duplicate-removal
blocks. -/
def cleanTypesKept (types : List DataType) (existingTypeNames : List String) : List DataType :=
  (types.filter (fun t => !removeTypeNames.contains t.name)).filter
    (fun t => !existingTypeNames.contains t.name)

def cleanCode (d : Data) : Data :=
  let enums := cleanEnums d.enumerations
  let interfaces1 := cleanInterfacesKept d.interfaces
  let enumNames := enums.map Enumeration.name
  let existingTypeNames := enumNames ++ interfaces1.map Interface.name
  let types2 := cleanTypesKept d.types existingTypeNames
  let types3 := types2.map (fun t =>
    t.setDependencies (t.dependencies.filter (fun n => !enumNames.contains n)))
  let interfaces2 := interfaces1.map (fun i =>
    i.setDependencies (i.dependencies.filter (fun n => !enumNames.contains n)))
  { d with enumerations := enums, types := types3, interfaces := interfaces2 }

/-! ## Concrete inputs used by witnesses and counterexamples -/

/-- A union property's alternatives from the spec's reordering example:
`A` deprecated since 3.0, `B` current since 3.15, `C` current since 3.0. -/
def altA : MetaType := ⟨"A", "A", "", "3.0", true, TypeKind.Other, []⟩

def altB : MetaType := ⟨"B", "B", "", "3.15", false, TypeKind.Other, []⟩

def altC : MetaType := ⟨"C", "C", "", "3.0", false, TypeKind.Other, []⟩

/-- The union property over `[A, B, C]`. -/
def unionProperty : MetaType := ⟨"alts", "", "", "", false, TypeKind.Or, [altA, altB, altC]⟩

/-- A property that is simultaneously self-referential (`value` equals the
enclosing interface name) and a literal constant (`StringLiteral` kind). -/
def clashProperty : MetaType := ⟨"kind", "CodeAction", "", "", false, TypeKind.StringLiteral, []⟩

/-- `Child extends Parent` with one own property `p3`. -/
def childInterface : Interface := ⟨"Child", "", ["Parent"], [⟨"p3", "string", ""⟩], [], []⟩

/-- `Parent` with properties `p1`, `p2`. -/
def parentInterface : Interface :=
  ⟨"Parent", "", [], [⟨"p1", "string", ""⟩, ⟨"p2", "string", ""⟩], [], []⟩

/-- An exception-set interface with declared properties and a child. -/
def selectionRangeInterface : Interface :=
  ⟨"SelectionRange", "", [], [⟨"range", "Range", ""⟩],
   [⟨"Inner", "", [], [⟨"x", "int", ""⟩], [], []⟩], []⟩

/-- Model containing only the three primitive aliases, to show they survive
the normalizer yet render to nothing. -/
def primitiveAliasModel : Data :=
  ⟨[], [], [],
   [⟨"integer", "int", "", []⟩, ⟨"uinteger", "unsigned int", "", []⟩,
    ⟨"decimal", "double", "", []⟩], []⟩

/-- Model with an enumeration named like the rename target next to the
enumeration that gets renamed onto it. -/
def renameClashModel : Data :=
  ⟨[], [], [⟨"InitializeErrorCodes", false, [], ""⟩, ⟨"InitializeError", false, [], ""⟩], [], []⟩

/-- Resolver input with a dangling dependency name. -/
def danglingState : ResolveState := ⟨[], [], [⟨"A", ["Missing"]⟩]⟩

/-- Resolver input with a two-cycle between interfaces. -/
def cycleState : ResolveState := ⟨[], [], [⟨"A", ["B"]⟩, ⟨"B", ["A"]⟩]⟩

/-- An interface depending on itself by name. -/
def selfLoopEntity : Entity := ⟨"I", ["I"]⟩

/-! ## Shared helper lemmas -/

/-- A state on which one loop iteration makes no progress makes the runner
fail for every amount of fuel — the C++ `while` loop spins forever. -/
theorem resolveRun_of_fixed (s : ResolveState) (hstep : resolveStep s = s)
    (hne : ¬ (s.types.isEmpty ∧ s.interfaces.isEmpty)) :
    ∀ fuel, resolveRun fuel s = none := by
  intro fuel
  induction fuel with
  | zero => rw [resolveRun, if_neg hne]
  | succ n ih => rw [resolveRun, if_neg hne, hstep]; exact ih

/-! ## Claim C10 -/

/-- C10: a type alias named exactly `integer`, `uinteger` or `decimal`
renders to the empty string (so never appears in the declarations
artifact); every other alias renders as a using-declaration of its
underlying value expression; and the three primitive aliases survive the
normalizer's removal lists. -/
theorem c10_primitive_aliases_suppressed :
    (∀ t : DataType, (t.name = "integer" ∨ t.name = "uinteger" ∨ t.name = "decimal") →
      writeType t = "")
    ∧ (∀ t : DataType, ¬ (t.name = "integer" ∨ t.name = "uinteger" ∨ t.name = "decimal") →
      writeType t = "\n" ++ t.comment ++ "using " ++ t.name ++ " = " ++ t.dataType ++ ";\n")
    ∧ (cleanCode primitiveAliasModel).types.map DataType.name = ["integer", "uinteger", "decimal"] := by
  refine ⟨fun t h => ?_, fun t h => ?_, by decide⟩
  · rw [writeType, if_pos h]
  · rw [writeType, if_neg h]

/-- Witness for C10 at the alias named `integer`. -/
theorem c10_witness :
    ((⟨"integer", "int", "", []⟩ : DataType).name = "integer" ∨
      (⟨"integer", "int", "", []⟩ : DataType).name = "uinteger" ∨
      (⟨"integer", "int", "", []⟩ : DataType).name = "decimal")
    ∧ writeType ⟨"integer", "int", "", []⟩ = "" :=
  ⟨Or.inl rfl, c10_primitive_aliases_suppressed.1 ⟨"integer", "int", "", []⟩ (Or.inl rfl)⟩

/-! ## Claim C4 -/

/-- C4: a property whose type equals the enclosing interface's name renders
as a heap-boxed `std::unique_ptr` field, never inline, and this branch wins
over the optional rendering (the hypothesis places no restriction on the
`?` optionality marker in the property name). -/
theorem c4_self_reference_boxed (property : Property) (interface : String)
    (h : property.dataType = interface) :
    writeProperty property interface =
      property.comment ++ "std::unique_ptr<" ++ property.dataType ++ "> " ++
        removeChar '?' (removeSubstr "readonly " property.name) ++ ";\n" := by
  rw [writeProperty, if_pos h]

/-- Witness for C4: an optional self-referential property still renders as
the boxed indirection field, with the `?` stripped. -/
theorem c4_witness :
    (⟨"parent?", "SelectionRange", ""⟩ : Property).dataType = "SelectionRange"
    ∧ writeProperty ⟨"parent?", "SelectionRange", ""⟩ "SelectionRange" =
      "std::unique_ptr<SelectionRange> parent;\n" :=
  ⟨rfl, (c4_self_reference_boxed ⟨"parent?", "SelectionRange", ""⟩ "SelectionRange" rfl).trans
    (by decide)⟩

/-! ## Claim C9 -/

/-- C9: an interface whose name is in the hand-written-exception set yields
only a `JSONIFY_FWD` forward-declaration binding, regardless of its
declared properties or nested children (the conclusion never inspects
them). -/
theorem c9_exception_forward_declaration (interfaces : List Interface) (fuel : Nat)
    (interface : Interface) (parent : List String)
    (h : jsonExceptions.contains interface.name) :
    writeJsonInterface interfaces (fuel + 1) interface parent =
      "\nJSONIFY_FWD(" ++ joinSep "::" (parent ++ [interface.name]) ++ ")\n" := by
  rw [writeJsonInterface, if_pos h]

/-- Witness for C9: `SelectionRange`, despite declared properties and a
nested child, produces only the forward declaration. -/
theorem c9_witness :
    jsonExceptions.contains selectionRangeInterface.name = true
    ∧ writeJsonInterface [selectionRangeInterface] 1 selectionRangeInterface [] =
      "\nJSONIFY_FWD(SelectionRange)\n" :=
  ⟨by decide,
   (c9_exception_forward_declaration [selectionRangeInterface] 0 selectionRangeInterface []
     (by decide)).trans (by decide)⟩

/-! ## Claim C6 -/

/-- C6 counterexample: on a property that is both self-referential and a
literal constant, the generator does not fail — it silently renders the
self-referential boxed field, i.e. it picks one rendering by precedence. -/
theorem c6_counterexample :
    writePropertyMeta [] 1 clashProperty "CodeAction" =
      "std::unique_ptr<CodeAction> kind;\n" := by
  decide

/-- C6 amended: when the self-referential and literal-constant conditions
both hold, `writeProperty` renders the boxed self-reference field (its
branch is tested first); no internal-consistency error exists in the code.
The literal items, if any, still land in the documentation prefix. -/
theorem c6_precedence_instead_of_error (rootTypes : List MetaType) (fuel : Nat)
    (property : MetaType) (interface : String)
    (hptr : property.value = interface)
    (hlit : property.kind = TypeKind.StringLiteral) :
    writePropertyMeta rootTypes (fuel + 1) property interface =
      metaDocText rootTypes fuel property interface ++
        "std::unique_ptr<" ++ property.value ++ "> " ++
        removeChar '?' property.name ++ ";\n" := by
  rw [writePropertyMeta, metaDocText, if_pos hptr, hlit]
  simp

/-- Witness for C6's amended theorem at the clash property. -/
theorem c6_witness :
    clashProperty.value = "CodeAction"
    ∧ clashProperty.kind = TypeKind.StringLiteral
    ∧ writePropertyMeta [] 1 clashProperty "CodeAction" =
      "std::unique_ptr<CodeAction> kind;\n" :=
  ⟨rfl, rfl,
   (c6_precedence_instead_of_error [] 0 clashProperty "CodeAction" rfl rfl).trans (by decide)⟩

/-! ## Claim C7 -/

/-- C7 counterexample: when opening the output file fails, the notification
writer completes with the bare-`return` outcome — nothing is written and no
error is reported to the caller (the writers are `void` and set no failure
state); likewise a failure on the types artifact silently skips the JSON
artifact as well. -/
theorem c7_counterexample :
    saveNotifications false [⟨"textDocument/didOpen", "DidOpenTextDocumentParams"⟩] =
      WriteOutcome.silentSkip
    ∧ saveCode false true "typesBody" "jsonBody" =
      (WriteOutcome.silentSkip, WriteOutcome.silentSkip) := by
  constructor <;> rfl

/-- C7 amended: an output-open failure makes each writer return immediately
without writing and without reporting anything (there is no error channel);
for `saveCode`, a failure on `types.h` also skips `types_json.h`
entirely, and a failure on `types_json.h` alone still writes `types.h`. -/
theorem c7_open_failure_swallowed :
    (∀ notifications, saveNotifications false notifications = WriteOutcome.silentSkip)
    ∧ (∀ requests, saveRequests false requests = WriteOutcome.silentSkip)
    ∧ (∀ openJsonOk typesText jsonText, saveCode false openJsonOk typesText jsonText =
        (WriteOutcome.silentSkip, WriteOutcome.silentSkip))
    ∧ (∀ typesText jsonText, saveCode true false typesText jsonText =
        (WriteOutcome.wroteFile (codeHeaderWrap typesText), WriteOutcome.silentSkip)) :=
  ⟨fun _ => rfl, fun _ => rfl, fun _ _ _ => rfl, fun _ _ => rfl⟩

/-- Witness for C7 at concrete inputs. -/
theorem c7_witness :
    saveRequests false [⟨"initialize", "InitializeParams", "InitializeResult", "InitializeError"⟩] =
      WriteOutcome.silentSkip :=
  c7_open_failure_swallowed.2.1 [⟨"initialize", "InitializeParams", "InitializeResult", "InitializeError"⟩]

/-! ## Claim C1 -/

/-- C1 counterexample: on the spec's example alternatives the code produces
the order `[A, C, B]` — deprecated `A` first (the comparator sorts
ascending on `!deprecated`, and `false < true`), then the non-deprecated
alternatives by ascending version — not the claimed `[C, B, A]`. -/
theorem c1_counterexample :
    (sortAlts [] [altA, altB, altC]).map MetaType.value = ["A", "C", "B"]
    ∧ (["A", "C", "B"] : List String) ≠ ["C", "B", "A"] := by
  constructor
  · decide
  · decide

/-- C1 amended: for a `UnionOfAlternatives` (`Or`) property the code
reorders the alternatives into a permutation sorted by the comparator key
(`!deprecated`, `since`) ascending — that is, *deprecated* alternatives
first, and within the same deprecation status ascending (lexicographic)
introduction version — and the property's effective type becomes the closed
`std::variant` over the reordered list; on the spec's example the order is
`[A, C, B]`. -/
theorem c1_union_reorder (rootTypes items : List MetaType) :
    (sortAlts rootTypes items).Perm items
    ∧ (sortAlts rootTypes items).Sorted (altLE rootTypes)
    ∧ (∀ (fuel : Nat) (property : MetaType) (interface : String),
        property.kind = TypeKind.Or →
        property.value ≠ interface →
        ¬ containsChar '?' property.name →
        writePropertyMeta rootTypes (fuel + 1) property interface =
          property.documentation ++
            ("std::variant<" ++ joinSep ", " ((sortAlts rootTypes property.items).map MetaType.value) ++ ">") ++
            " " ++ property.name ++ ";\n")
    ∧ (sortAlts [] [altA, altB, altC]).map MetaType.value = ["A", "C", "B"] := by
  refine ⟨List.perm_insertionSort (altLE rootTypes) items, ?_, ?_, by decide⟩
  · haveI : IsTotal MetaType (altLE rootTypes) :=
      ⟨fun a b => le_total (altKey rootTypes a) (altKey rootTypes b)⟩
    haveI : IsTrans MetaType (altLE rootTypes) :=
      ⟨fun _ _ _ h h2 => le_trans h h2⟩
    exact List.sorted_insertionSort (altLE rootTypes) items
  · intro fuel property interface hkind hptr hopt
    rw [writePropertyMeta, hkind]
    simp [hptr, hopt]

/-- Witness for C1 at the example union property rendered inside an
unrelated interface. -/
theorem c1_witness :
    unionProperty.kind = TypeKind.Or
    ∧ unionProperty.value ≠ "TextDocument"
    ∧ ¬ containsChar '?' unionProperty.name
    ∧ writePropertyMeta [] 1 unionProperty "TextDocument" = "std::variant<A, C, B> alts;\n" :=
  ⟨rfl, by decide, by decide,
   ((c1_union_reorder [] []).2.2.1 0 unionProperty "TextDocument" rfl (by decide)
     (by decide)).trans (by decide)⟩

/-! ## Claim C3 -/

/-- C3: on a dependency two-cycle, and on a dangling dependency name, one
loop iteration is the identity on the stuck state, so the emission loop of
`writeTypesAndInterfaces` never terminates — for every amount of fuel the
runner fails to finish — and no error of any kind is produced (the code has
no error path at all in this loop). -/
theorem c3_stuck_loop_never_terminates :
    resolveStep cycleState = cycleState
    ∧ resolveStep danglingState = danglingState
    ∧ (∀ fuel, resolveRun fuel cycleState = none)
    ∧ (∀ fuel, resolveRun fuel danglingState = none) :=
  ⟨by decide, by decide,
   resolveRun_of_fixed cycleState (by decide) (by decide),
   resolveRun_of_fixed danglingState (by decide) (by decide)⟩

/-! ## Claim C2 -/

/-- C2 counterexample: an interface whose dependency set names itself — an
input whose dependency graph is acyclic once self-references are excluded,
and all of whose dependency names resolve — defeats the loop: the full fuel
budget is exhausted without emitting anything, and one iteration is the
identity on the stuck state, so no amount of fuel terminates the loop. -/
theorem c2_counterexample :
    resolveOrder [] [selfLoopEntity] = none
    ∧ resolveStep ⟨[], [], [selfLoopEntity]⟩ = ⟨[], [], [selfLoopEntity]⟩ := by
  constructor
  · decide
  · decide

/-- Loop invariant of the wave/prune loop, relative to the original entity
list `orig`: (1) the emitted and remaining names together are a permutation
of the original names; (2) every remaining entity is an original entity
whose dependency set has been filtered down by exactly the emitted names;
(3) every already-emitted entity sits strictly after each of its original
dependencies in the emitted sequence. -/
def StateInv (orig : List Entity) (s : ResolveState) : Prop :=
  ((s.emitted.map Entity.name ++ (s.types ++ s.interfaces).map Entity.name).Perm
      (orig.map Entity.name))
  ∧ (∀ e ∈ s.types ++ s.interfaces, ∃ e₀ ∈ orig, e.name = e₀.name ∧
      e.deps = e₀.deps.filter (fun d => !(s.emitted.map Entity.name).contains d))
  ∧ (∀ e₀ ∈ orig, e₀.name ∈ s.emitted.map Entity.name →
      ∀ d ∈ e₀.deps, [d, e₀.name].Sublist (s.emitted.map Entity.name))

theorem exists_min_rank (f : Entity → Nat) (l : List Entity) (h : l ≠ []) :
    ∃ a ∈ l, ∀ b ∈ l, f a ≤ f b := by
  induction l with
  | nil => exact absurd rfl h
  | cons x xs ih =>
    cases xs with
    | nil => exact ⟨x, by simp⟩
    | cons y ys =>
      obtain ⟨a, ha, hmin⟩ := ih (by simp)
      by_cases hxa : f x ≤ f a
      · refine ⟨x, by simp, ?_⟩
        intro b hb
        rcases List.mem_cons.mp hb with rfl | hb
        · exact le_refl _
        · exact le_trans hxa (hmin b hb)
      · refine ⟨a, List.mem_cons_of_mem _ ha, ?_⟩
        intro b hb
        rcases List.mem_cons.mp hb with rfl | hb
        · omega
        · exact hmin b hb

theorem contains_append (l₁ l₂ : List String) (a : String) :
    (l₁ ++ l₂).contains a = (l₁.contains a || l₂.contains a) := by
  by_cases h1 : a ∈ l₁ <;> by_cases h2 : a ∈ l₂ <;>
    simp [List.contains, List.elem_iff, List.mem_append, h1, h2]

theorem map_name_map_prune (names : List String) (l : List Entity) :
    (l.map (pruneEntity names)).map Entity.name = l.map Entity.name := by
  induction l with
  | nil => rfl
  | cons x xs ih => simp [pruneEntity, ih]

theorem filter_partition_length (p : Entity → Bool) (l : List Entity) :
    (l.filter p).length + (l.filter (fun e => !p e)).length = l.length := by
  have := (List.filter_append_perm p l).length_eq
  simpa using this

theorem names_filter_perm (p : Entity → Bool) (l : List Entity) :
    ((l.filter p).map Entity.name ++ (l.filter (fun e => !p e)).map Entity.name).Perm
      (l.map Entity.name) := by
  have := (List.filter_append_perm p l).map Entity.name
  simpa [List.map_append] using this

theorem perm_swap_left (a b c : List String) : (a ++ (b ++ c)).Perm (b ++ (a ++ c)) := by
  have h : ((a ++ b) ++ c).Perm ((b ++ a) ++ c) :=
    List.Perm.append List.perm_append_comm (List.Perm.refl c)
  simpa [List.append_assoc] using h

theorem step_wave_nonempty (orig : List Entity) (rank : String → Nat)
    (hrank : ∀ e ∈ orig, ∀ d ∈ e.deps, rank d < rank e.name)
    (hres : ∀ e ∈ orig, ∀ d ∈ e.deps, d ∈ orig.map Entity.name)
    (s : ResolveState) (hinv : StateInv orig s)
    (hne : ¬ (s.types = [] ∧ s.interfaces = [])) :
    ∃ e ∈ s.types ++ s.interfaces, e.deps = [] := by
  have hremne : s.types ++ s.interfaces ≠ [] := by
    intro h
    rcases List.append_eq_nil.mp h with ⟨h1, h2⟩
    exact hne ⟨h1, h2⟩
  obtain ⟨e, he, hmin⟩ := exists_min_rank (fun e => rank e.name) _ hremne
  refine ⟨e, he, ?_⟩
  by_contra hdne
  obtain ⟨e₀, he₀, hname, hdeps⟩ := hinv.2.1 e he
  obtain ⟨d, hd⟩ := List.exists_mem_of_ne_nil _ hdne
  rw [hdeps] at hd
  have hmem := List.mem_filter.mp hd
  have hdorig : d ∈ e₀.deps := hmem.1
  have hdnotem : d ∉ s.emitted.map Entity.name := by
    have h2 := hmem.2
    simp only [List.contains, Bool.not_eq_true'] at h2
    intro hcontra
    rw [List.elem_iff.mpr hcontra] at h2
    cases h2
  have hdnames : d ∈ (orig.map Entity.name) := hres e₀ he₀ d hdorig
  rcases List.mem_append.mp (hinv.1.mem_iff.mpr hdnames) with h1 | h2
  · exact hdnotem h1
  · obtain ⟨e', he', hne'⟩ := List.mem_map.mp h2
    have hlt : rank d < rank e.name := by
      rw [hname]
      exact hrank e₀ he₀ d hdorig
    have hge : rank e.name ≤ rank e'.name := hmin e' he'
    rw [hne'] at hge
    omega

theorem stateInv_step (orig : List Entity) (rank : String → Nat)
    (hrank : ∀ e ∈ orig, ∀ d ∈ e.deps, rank d < rank e.name)
    (hres : ∀ e ∈ orig, ∀ d ∈ e.deps, d ∈ orig.map Entity.name)
    (hnodup : (orig.map Entity.name).Nodup)
    (s : ResolveState) (hinv : StateInv orig s)
    (hne : ¬ (s.types = [] ∧ s.interfaces = [])) :
    StateInv orig (resolveStep s) ∧
      (resolveStep s).types.length + (resolveStep s).interfaces.length <
        s.types.length + s.interfaces.length := by
  obtain ⟨ew, hew, hewnil⟩ := step_wave_nonempty orig rank hrank hres s hinv hne
  -- names of the pieces of one wave
  have hlen : (resolveStep s).types.length + (resolveStep s).interfaces.length <
      s.types.length + s.interfaces.length := by
    have ht := filter_partition_length (fun e => e.deps.isEmpty) s.types
    have hi := filter_partition_length (fun e => e.deps.isEmpty) s.interfaces
    have hwave : 0 < (s.types.filter (fun e => e.deps.isEmpty)).length +
        (s.interfaces.filter (fun e => e.deps.isEmpty)).length := by
      rcases List.mem_append.mp hew with h | h
      · have : ew ∈ s.types.filter (fun e => e.deps.isEmpty) :=
          List.mem_filter.mpr ⟨h, by simp [hewnil]⟩
        have := List.length_pos_of_mem this
        omega
      · have : ew ∈ s.interfaces.filter (fun e => e.deps.isEmpty) :=
          List.mem_filter.mpr ⟨h, by simp [hewnil]⟩
        have := List.length_pos_of_mem this
        omega
    simp only [resolveStep, List.length_map]
    omega
  refine ⟨⟨?_, ?_, ?_⟩, hlen⟩
  · -- permutation of names
    simp only [resolveStep, List.map_append, map_name_map_prune, List.append_assoc]
    have h1 := hinv.1
    simp only [List.map_append, List.append_assoc] at h1
    refine List.Perm.trans ?_ h1
    apply List.Perm.append_left
    refine List.Perm.trans (List.Perm.append_left _ (perm_swap_left _ _ _)) ?_
    have h2 : ((s.types.filter (fun e => e.deps.isEmpty)).map Entity.name ++
        ((s.types.filter (fun e => !e.deps.isEmpty)).map Entity.name ++
          ((s.interfaces.filter (fun e => e.deps.isEmpty)).map Entity.name ++
            (s.interfaces.filter (fun e => !e.deps.isEmpty)).map Entity.name))).Perm
        (((s.types.filter (fun e => e.deps.isEmpty)).map Entity.name ++
          (s.types.filter (fun e => !e.deps.isEmpty)).map Entity.name) ++
          ((s.interfaces.filter (fun e => e.deps.isEmpty)).map Entity.name ++
            (s.interfaces.filter (fun e => !e.deps.isEmpty)).map Entity.name)) := by
      simp [List.append_assoc]
    refine h2.trans ?_
    exact (names_filter_perm _ _).append (names_filter_perm _ _)
  · -- remaining entities are originals with deps filtered by emitted names
    intro e' he'
    simp only [resolveStep, List.mem_append, List.mem_map] at he'
    have hsplit : ∃ e, (e ∈ s.types ∨ e ∈ s.interfaces) ∧ (!e.deps.isEmpty) = true ∧
        pruneEntity ((s.types.filter (fun e => e.deps.isEmpty) ++
          s.interfaces.filter (fun e => e.deps.isEmpty)).map Entity.name) e = e' := by
      rcases he' with ⟨e, he, hpe⟩ | ⟨e, he, hpe⟩
      · have := List.mem_filter.mp he
        exact ⟨e, Or.inl this.1, this.2, hpe⟩
      · have := List.mem_filter.mp he
        exact ⟨e, Or.inr this.1, this.2, hpe⟩
    obtain ⟨e, hein, _, hpe⟩ := hsplit
    obtain ⟨e₀, he₀, hname, hdeps⟩ := hinv.2.1 e (List.mem_append.mpr hein)
    refine ⟨e₀, he₀, ?_, ?_⟩
    · rw [← hpe]
      exact hname
    · rw [← hpe]
      show e.deps.filter _ = _
      rw [hdeps, List.filter_filter]
      refine List.filter_congr ?_
      intro d _
      simp only [resolveStep, List.map_append, contains_append, Bool.not_or]
      cases h1 : (List.map Entity.name s.emitted).contains d <;>
        cases h2 : (List.map Entity.name (List.filter (fun e => e.deps.isEmpty) s.types)).contains d <;>
        cases h3 : (List.map Entity.name (List.filter (fun e => e.deps.isEmpty) s.interfaces)).contains d <;>
        simp [h1, h2, h3]
  · -- emitted entities follow their dependencies
    intro e₀ he₀ hmem d hd
    have hemit : (resolveStep s).emitted.map Entity.name =
        s.emitted.map Entity.name ++
          ((s.types.filter (fun e => e.deps.isEmpty)).map Entity.name ++
            (s.interfaces.filter (fun e => e.deps.isEmpty)).map Entity.name) := by
      simp [resolveStep, List.map_append, List.append_assoc]
    rw [hemit] at hmem ⊢
    rcases List.mem_append.mp hmem with hold | hnew
    · exact (hinv.2.2 e₀ he₀ hold d hd).trans (List.sublist_append_left _ _)
    · -- e₀ was emitted this wave: its current deps were empty,
      -- so every original dep was already in the old emitted list
      have : ∃ e, e ∈ s.types.filter (fun e => e.deps.isEmpty) ++
          s.interfaces.filter (fun e => e.deps.isEmpty) ∧ e.name = e₀.name := by
        rcases List.mem_append.mp hnew with h | h
        · obtain ⟨e, he, hn⟩ := List.mem_map.mp h
          exact ⟨e, List.mem_append.mpr (Or.inl he), hn⟩
        · obtain ⟨e, he, hn⟩ := List.mem_map.mp h
          exact ⟨e, List.mem_append.mpr (Or.inr he), hn⟩
      obtain ⟨e, hewave, hen⟩ := this
      have hein : e ∈ s.types ++ s.interfaces := by
        rcases List.mem_append.mp hewave with h | h
        · exact List.mem_append.mpr (Or.inl (List.mem_filter.mp h).1)
        · exact List.mem_append.mpr (Or.inr (List.mem_filter.mp h).1)
      have hezero : e.deps = [] := by
        rcases List.mem_append.mp hewave with h | h
        · exact List.isEmpty_iff.mp (by simpa using (List.mem_filter.mp h).2)
        · exact List.isEmpty_iff.mp (by simpa using (List.mem_filter.mp h).2)
      obtain ⟨e₁, he₁, hname₁, hdeps₁⟩ := hinv.2.1 e hein
      have he₁e₀ : e₁ = e₀ := by
        apply List.inj_on_of_nodup_map hnodup he₁ he₀
        rw [← hname₁, hen]
      subst he₁e₀
      have hall : ∀ x ∈ e₁.deps, x ∈ s.emitted.map Entity.name := by
        intro x hx
        have h4 := List.filter_eq_nil_iff.mp (hdeps₁ ▸ hezero) x hx
        simpa [List.contains, List.elem_iff] using h4
      have hd' : d ∈ s.emitted.map Entity.name := hall d hd
      have h1 : [d].Sublist (s.emitted.map Entity.name) := List.singleton_sublist.mpr hd'
      have h2 : [e₁.name].Sublist
          ((s.types.filter (fun e => e.deps.isEmpty)).map Entity.name ++
            (s.interfaces.filter (fun e => e.deps.isEmpty)).map Entity.name) := by
        rw [List.singleton_sublist]
        rcases List.mem_append.mp hnew with h | h
        · exact List.mem_append.mpr (Or.inl h)
        · exact List.mem_append.mpr (Or.inr h)
      exact h1.append h2

theorem resolveRun_done (orig : List Entity) (s : ResolveState) (hinv : StateInv orig s)
    (ht : s.types = []) (hi : s.interfaces = []) (n : Nat) :
    ∃ out, resolveRun n s = some out ∧
      (out.map Entity.name).Perm (orig.map Entity.name) ∧
      ∀ e₀ ∈ orig, ∀ d ∈ e₀.deps, [d, e₀.name].Sublist (out.map Entity.name) := by
  have hdone : (s.types.isEmpty ∧ s.interfaces.isEmpty) := ⟨by simp [ht], by simp [hi]⟩
  refine ⟨s.emitted, ?_, ?_, ?_⟩
  · rw [resolveRun.eq_def, if_pos hdone]
  · have h1 := hinv.1
    rw [ht, hi] at h1
    simpa using h1
  · intro e₀ he₀ d hd
    apply hinv.2.2 e₀ he₀ _ d hd
    have h1 := hinv.1
    rw [ht, hi] at h1
    have h2 : e₀.name ∈ orig.map Entity.name := List.mem_map_of_mem _ he₀
    have h3 := h1.mem_iff.mpr h2
    simpa using h3

theorem resolveRun_complete (orig : List Entity) (rank : String → Nat)
    (hrank : ∀ e ∈ orig, ∀ d ∈ e.deps, rank d < rank e.name)
    (hres : ∀ e ∈ orig, ∀ d ∈ e.deps, d ∈ orig.map Entity.name)
    (hnodup : (orig.map Entity.name).Nodup) :
    ∀ n s, StateInv orig s → s.types.length + s.interfaces.length ≤ n →
      ∃ out, resolveRun n s = some out ∧
        (out.map Entity.name).Perm (orig.map Entity.name) ∧
        ∀ e₀ ∈ orig, ∀ d ∈ e₀.deps, [d, e₀.name].Sublist (out.map Entity.name) := by
  intro n
  induction n with
  | zero =>
    intro s hinv hlen
    have ht : s.types = [] := List.eq_nil_of_length_eq_zero (by omega)
    have hi : s.interfaces = [] := List.eq_nil_of_length_eq_zero (by omega)
    exact resolveRun_done orig s hinv ht hi 0
  | succ m ih =>
    intro s hinv hlen
    by_cases hdone : s.types = [] ∧ s.interfaces = []
    · exact resolveRun_done orig s hinv hdone.1 hdone.2 (m + 1)
    · obtain ⟨hinv', hlt⟩ := stateInv_step orig rank hrank hres hnodup s hinv hdone
      have hrun : resolveRun (m + 1) s = resolveRun m (resolveStep s) := by
        rw [resolveRun]
        rw [if_neg ?_]
        intro hc
        exact hdone ⟨List.isEmpty_iff.mp hc.1, List.isEmpty_iff.mp hc.2⟩
      rw [hrun]
      exact ih (resolveStep s) hinv' (by omega)

/-- C2 amended: each loop iteration emits the zero-dependency types (in list
order) followed by the zero-dependency interfaces (in list order); and for
every input whose dependency graph — *including* self-references — is
acyclic (witnessed by a rank function that strictly decreases along every
dependency edge), whose dependency names all resolve to present entities,
and whose entity names are unique, the loop terminates within the fuel
budget and emits an order in which every entity appears strictly after
every entity named in its dependency set. -/
theorem c2_resolver_topological_order (types interfaces : List Entity) (rank : String → Nat)
    (hrank : ∀ e ∈ types ++ interfaces, ∀ d ∈ e.deps, rank d < rank e.name)
    (hres : ∀ e ∈ types ++ interfaces, ∀ d ∈ e.deps, d ∈ (types ++ interfaces).map Entity.name)
    (hnodup : ((types ++ interfaces).map Entity.name).Nodup) :
    (∀ s, (resolveStep s).emitted = s.emitted ++ s.types.filter (fun e => e.deps.isEmpty) ++
        s.interfaces.filter (fun e => e.deps.isEmpty))
    ∧ ∃ out, resolveOrder types interfaces = some out ∧
        (out.map Entity.name).Perm ((types ++ interfaces).map Entity.name) ∧
        ∀ e ∈ types ++ interfaces, ∀ d ∈ e.deps, [d, e.name].Sublist (out.map Entity.name) := by
  refine ⟨fun s => rfl, ?_⟩
  have hinit : StateInv (types ++ interfaces) ⟨[], types, interfaces⟩ := by
    refine ⟨by simp, ?_, ?_⟩
    · intro e he
      refine ⟨e, he, rfl, ?_⟩
      symm
      rw [List.filter_eq_self]
      intro a _
      simp [List.contains]
    · intro e₀ _ hmem
      simp at hmem
  exact resolveRun_complete (types ++ interfaces) rank hrank hres hnodup
    (types.length + interfaces.length) ⟨[], types, interfaces⟩ hinit (by simp)

/-- Ranking function witnessing acyclicity of the witness model below. -/
def c2Rank : String → Nat :=
  fun n => if n = "T1" then 0 else if n = "I1" then 1 else 2

/-- Aliases of the C2 witness model: `T1` with no dependencies, `T2`
depending on interface `I1`. -/
def c2Types : List Entity := [⟨"T1", []⟩, ⟨"T2", ["I1"]⟩]

/-- Interfaces of the C2 witness model: `I1` depending on `T1`. -/
def c2Interfaces : List Entity := [⟨"I1", ["T1"]⟩]

/-- Witness for C2 at the small acyclic model. -/
theorem c2_witness :
    (∀ e ∈ c2Types ++ c2Interfaces, ∀ d ∈ e.deps, c2Rank d < c2Rank e.name)
    ∧ (∀ e ∈ c2Types ++ c2Interfaces, ∀ d ∈ e.deps,
        d ∈ (c2Types ++ c2Interfaces).map Entity.name)
    ∧ ((c2Types ++ c2Interfaces).map Entity.name).Nodup
    ∧ (∃ out, resolveOrder c2Types c2Interfaces = some out ∧
        (out.map Entity.name).Perm ((c2Types ++ c2Interfaces).map Entity.name) ∧
        ∀ e ∈ c2Types ++ c2Interfaces, ∀ d ∈ e.deps,
          [d, e.name].Sublist (out.map Entity.name)) :=
  ⟨by decide, by decide, by decide,
   (c2_resolver_topological_order c2Types c2Interfaces c2Rank
     (by decide) (by decide) (by decide)).2⟩

/-! ## Claim C5 -/

theorem flatMap_congr_mem {α β : Type} {l : List α} {f g : α → List β}
    (h : ∀ a ∈ l, f a = g a) : l.flatMap f = l.flatMap g := by
  induction l with
  | nil => rfl
  | cons x xs ih =>
    rw [List.flatMap_cons, List.flatMap_cons, h x (List.mem_cons_self x xs)]
    rw [ih (fun a ha => h a (List.mem_cons_of_mem x ha))]

/-- Once the fuel exceeds the extends-chain height (measured by a rank
function that decreases from an interface to each of its resolved bases),
`interfaceProperties` no longer depends on the fuel. -/
theorem interfaceProperties_fuel_stable (interfaces : List Interface) (rank : String → Nat)
    (hrank : ∀ i ∈ interfaces, ∀ ext ∈ i.extendsList, ∀ j ∈ interfaces, j.name = ext →
      rank j.name < rank i.name) :
    ∀ k i, i ∈ interfaces → rank i.name = k →
      ∀ f g, rank i.name < f → rank i.name < g →
        interfaceProperties f i interfaces = interfaceProperties g i interfaces := by
  intro k
  induction k using Nat.strong_induction_on with
  | _ k ih =>
    intro i hi hk f g hf hg
    obtain ⟨f', rfl⟩ : ∃ f', f = f' + 1 := ⟨f - 1, by omega⟩
    obtain ⟨g', rfl⟩ : ∃ g', g = g' + 1 := ⟨g - 1, by omega⟩
    rw [interfaceProperties, interfaceProperties]
    congr 1
    apply flatMap_congr_mem
    intro ext hext
    cases hfind : interfaces.find? (fun j => j.name == ext) with
    | none => rfl
    | some it =>
      have hmem := List.mem_of_find?_eq_some hfind
      have hname : it.name = ext := by simpa using List.find?_some hfind
      have hlt : rank it.name < k := by
        rw [← hk]
        exact hrank i hi ext hext it hmem hname
      exact ih (rank it.name) hlt it hmem rfl f' g' (by omega) (by omega)

/-- C5: with sufficient fuel, the flattened JSON-binding property-name list
equals the interface's own property names with the optionality marker (and
`"readonly "`) stripped, in declared order, followed by each `extends`
base's flattened list (computed recursively at the same fuel) in
declaration order; `Child extends Parent` flattens to `[p3, p1, p2]`. -/
theorem c5_flattened_property_names (interfaces : List Interface) (rank : String → Nat)
    (hrank : ∀ i ∈ interfaces, ∀ ext ∈ i.extendsList, ∀ j ∈ interfaces, j.name = ext →
      rank j.name < rank i.name) :
    (∀ i ∈ interfaces, ∀ fuel, rank i.name < fuel →
      interfaceProperties fuel i interfaces =
        i.properties.map (fun prop => removeSubstr "readonly " (removeChar '?' prop.name))
          ++ i.extendsList.flatMap (fun ext =>
              match interfaces.find? (fun j => j.name == ext) with
              | some it => interfaceProperties fuel it interfaces
              | none => []))
    ∧ interfaceProperties 2 childInterface [childInterface, parentInterface] = ["p3", "p1", "p2"] := by
  refine ⟨?_, by decide⟩
  intro i hi fuel hfuel
  obtain ⟨f', rfl⟩ : ∃ f', fuel = f' + 1 := ⟨fuel - 1, by omega⟩
  rw [interfaceProperties]
  congr 1
  apply flatMap_congr_mem
  intro ext hext
  cases hfind : interfaces.find? (fun j => j.name == ext) with
  | none => rfl
  | some it =>
    have hmem := List.mem_of_find?_eq_some hfind
    have hname : it.name = ext := by simpa using List.find?_some hfind
    have hlt : rank it.name < rank i.name := hrank i hi ext hext it hmem hname
    exact interfaceProperties_fuel_stable interfaces rank hrank (rank it.name) it hmem rfl
      f' (f' + 1) (by omega) (by omega)

/-- Ranking function for the C5 witness: `Parent` below `Child`. -/
def c5Rank : String → Nat :=
  fun n => if n = "Parent" then 0 else 1

/-- Witness for C5 at the `Child extends Parent` example. -/
theorem c5_witness :
    (∀ i ∈ [childInterface, parentInterface], ∀ ext ∈ i.extendsList,
      ∀ j ∈ [childInterface, parentInterface], j.name = ext → c5Rank j.name < c5Rank i.name)
    ∧ c5Rank childInterface.name < 2
    ∧ interfaceProperties 2 childInterface [childInterface, parentInterface] =
        ["p3", "p1", "p2"] :=
  ⟨by decide, by decide,
   (c5_flattened_property_names [childInterface, parentInterface] c5Rank (by decide)).2⟩

/-! ## Claim C8 -/

theorem qToUpper_idem (c : Char) : qToUpper (qToUpper c) = qToUpper c := by
  by_cases h : 97 ≤ c.toNat ∧ c.toNat ≤ 122
  · have hv : (c.toNat - 32).isValidChar := by
      unfold Nat.isValidChar
      left
      omega
    have htn : (Char.ofNat (c.toNat - 32)).toNat = c.toNat - 32 := by
      rw [Char.ofNat, dif_pos hv]
      simp [Char.ofNatAux, Char.toNat, UInt32.toNat, UInt32.ofNatCore]
    have hq : qToUpper c = Char.ofNat (c.toNat - 32) := by rw [qToUpper, if_pos h]
    rw [hq, qToUpper, if_neg]
    rw [htn]
    omega
  · have hq : qToUpper c = c := by rw [qToUpper, if_neg h]
    rw [hq]
    exact hq

theorem capFirst_idem (s : String) : capFirst (capFirst s) = capFirst s := by
  cases s with
  | mk data =>
    cases data with
    | nil => rfl
    | cons c cs => simp [capFirst, qToUpper_idem]

theorem removeChar_idem (c : Char) (s : String) :
    removeChar c (removeChar c s) = removeChar c s := by
  simp [removeChar, List.filter_filter]

theorem cleanEnumValue_idem (b : Bool) (v : EnumValue) :
    cleanEnumValue b (cleanEnumValue b v) = cleanEnumValue b v := by
  cases b <;> simp [cleanEnumValue, capFirst_idem, removeChar_idem]

theorem renameEnum_idem (n : String) : renameEnum (renameEnum n) = renameEnum n := by
  by_cases h : n = "InitializeError"
  · have hq : renameEnum n = "InitializeErrorCodes" := by rw [renameEnum, if_pos h]
    rw [hq, renameEnum, if_neg (by decide)]
  · have hq : renameEnum n = n := by rw [renameEnum, if_neg h]
    rw [hq]
    exact hq

theorem cleanEnum_idem (e : Enumeration) : cleanEnum (cleanEnum e) = cleanEnum e := by
  simp only [cleanEnum, renameEnum_idem, List.map_map]
  congr 1
  apply List.map_congr_left
  intro v _
  exact cleanEnumValue_idem e.isString v

theorem dedupe_spec (seen : List String) (l : List Enumeration) :
    ((dedupeEnums seen l).map Enumeration.name).Nodup ∧
      ∀ e ∈ dedupeEnums seen l, e.name ∉ seen := by
  induction l generalizing seen with
  | nil => exact ⟨List.nodup_nil, by simp [dedupeEnums]⟩
  | cons e rest ih =>
    by_cases h : seen.contains e.name = true
    · rw [dedupeEnums, if_pos h]
      exact ih seen
    · rw [dedupeEnums, if_neg h]
      obtain ⟨hnd, hnot⟩ := ih (e.name :: seen)
      refine ⟨?_, ?_⟩
      · simp only [List.map_cons, List.nodup_cons]
        refine ⟨?_, hnd⟩
        intro hmem
        obtain ⟨x, hx, hxn⟩ := List.mem_map.mp hmem
        exact hnot x hx (by rw [hxn]; exact List.mem_cons_self _ _)
      · intro x hx
        rcases List.mem_cons.mp hx with rfl | hx
        · intro hc
          exact h (List.elem_iff.mpr hc)
        · intro hc
          exact hnot x hx (List.mem_cons_of_mem _ hc)

theorem dedupe_sublist (seen : List String) (l : List Enumeration) :
    (dedupeEnums seen l).Sublist l := by
  induction l generalizing seen with
  | nil => exact List.Sublist.refl _
  | cons e rest ih =>
    by_cases h : seen.contains e.name = true
    · rw [dedupeEnums, if_pos h]
      exact (ih seen).trans (List.sublist_cons_self e rest)
    · rw [dedupeEnums, if_neg h]
      exact List.Sublist.cons₂ e (ih (e.name :: seen))

theorem dedupe_eq_self (seen : List String) (l : List Enumeration)
    (hnd : (l.map Enumeration.name).Nodup) (hseen : ∀ e ∈ l, e.name ∉ seen) :
    dedupeEnums seen l = l := by
  induction l generalizing seen with
  | nil => rfl
  | cons e rest ih =>
    have h : ¬ seen.contains e.name = true := by
      intro hc
      exact hseen e (List.mem_cons_self e rest) (List.elem_iff.mp hc)
    rw [dedupeEnums, if_neg h]
    congr 1
    have hnd' : (∀ x ∈ rest, ¬ x.name = e.name) ∧ (rest.map Enumeration.name).Nodup := by
      simpa using hnd
    apply ih (e.name :: seen) hnd'.2
    intro x hx hc
    rcases List.mem_cons.mp hc with heq | hc
    · exact hnd'.1 x hx heq
    · exact hseen x (List.mem_cons_of_mem _ hx) hc

theorem cleanEnums_names_nodup (enums : List Enumeration)
    (h : ¬ ("InitializeError" ∈ enums.map Enumeration.name ∧
        "InitializeErrorCodes" ∈ enums.map Enumeration.name)) :
    ((cleanEnums enums).map Enumeration.name).Nodup := by
  have hnd := (dedupe_spec [] enums).1
  have hsubn : ∀ n ∈ (dedupeEnums [] enums).map Enumeration.name,
      n ∈ enums.map Enumeration.name := by
    intro n hn
    exact ((dedupe_sublist [] enums).map Enumeration.name).subset hn
  have heq : (cleanEnums enums).map Enumeration.name =
      ((dedupeEnums [] enums).map Enumeration.name).map renameEnum := by
    rw [cleanEnums, List.map_map, List.map_map]
    exact List.map_congr_left (fun e _ => rfl)
  rw [heq]
  apply List.Nodup.map_on ?_ hnd
  intro x hx y hy hxy
  by_cases hxe : x = "InitializeError" <;> by_cases hye : y = "InitializeError"
  · rw [hxe, hye]
  · rw [renameEnum, if_pos hxe, renameEnum, if_neg hye] at hxy
    exfalso
    apply h
    constructor
    · rw [← hxe]
      exact hsubn x hx
    · rw [hxy]
      exact hsubn y hy
  · rw [renameEnum, if_neg hxe, renameEnum, if_pos hye] at hxy
    exfalso
    apply h
    constructor
    · rw [← hye]
      exact hsubn y hy
    · rw [← hxy]
      exact hsubn x hx
  · rw [renameEnum, if_neg hxe, renameEnum, if_neg hye] at hxy
    exact hxy

theorem cleanEnums_idem (enums : List Enumeration)
    (h : ¬ ("InitializeError" ∈ enums.map Enumeration.name ∧
        "InitializeErrorCodes" ∈ enums.map Enumeration.name)) :
    cleanEnums (cleanEnums enums) = cleanEnums enums := by
  show (dedupeEnums [] (cleanEnums enums)).map cleanEnum = cleanEnums enums
  rw [dedupe_eq_self [] (cleanEnums enums) (cleanEnums_names_nodup enums h)
    (fun e _ => List.not_mem_nil e.name)]
  rw [cleanEnums, List.map_map]
  apply List.map_congr_left
  intro e _
  exact cleanEnum_idem e

theorem setDependencies_name (i : Interface) (deps : List String) :
    (i.setDependencies deps).name = i.name := by
  cases i
  rfl

theorem setDependencies_deps (i : Interface) (deps : List String) :
    (i.setDependencies deps).dependencies = deps := by
  cases i
  rfl

theorem setDependencies_twice (i : Interface) (d₁ d₂ : List String) :
    (i.setDependencies d₁).setDependencies d₂ = i.setDependencies d₂ := by
  cases i
  rfl

theorem filter_self_idem {α : Type} (p : α → Bool) (l : List α) :
    (l.filter p).filter p = l.filter p := by
  rw [List.filter_filter]
  exact List.filter_congr (fun a _ => Bool.and_self (p a))

theorem data_ext (a b : Data) (h1 : a.notifications = b.notifications)
    (h2 : a.requests = b.requests) (h3 : a.enumerations = b.enumerations)
    (h4 : a.types = b.types) (h5 : a.interfaces = b.interfaces) : a = b := by
  cases a
  cases b
  cases h1
  cases h2
  cases h3
  cases h4
  cases h5
  rfl

theorem cleanCode_notifications (d : Data) : (cleanCode d).notifications = d.notifications := rfl

theorem cleanCode_requests (d : Data) : (cleanCode d).requests = d.requests := rfl

theorem cleanCode_enums (d : Data) : (cleanCode d).enumerations = cleanEnums d.enumerations := rfl

theorem cleanCode_interfaces (d : Data) : (cleanCode d).interfaces =
    (cleanInterfacesKept d.interfaces).map (fun i => i.setDependencies
      (i.dependencies.filter
        (fun n => !((cleanEnums d.enumerations).map Enumeration.name).contains n))) := rfl

theorem cleanCode_types (d : Data) : (cleanCode d).types =
    (cleanTypesKept d.types ((cleanEnums d.enumerations).map Enumeration.name ++
        (cleanInterfacesKept d.interfaces).map Interface.name)).map
      (fun t => t.setDependencies (t.dependencies.filter
        (fun n => !((cleanEnums d.enumerations).map Enumeration.name).contains n))) := rfl

theorem cleanInterfacesKept_eq (l : List Interface) :
    cleanInterfacesKept l = l.filter (fun i => !removeStructNames.contains i.name) := rfl

theorem cleanTypesKept_eq (l : List DataType) (x : List String) :
    cleanTypesKept l x = (l.filter (fun t => !removeTypeNames.contains t.name)).filter
      (fun t => !x.contains t.name) := rfl

theorem map_name_setDeps (l : List Interface) (f : Interface → List String) :
    (l.map (fun i => i.setDependencies (f i))).map Interface.name = l.map Interface.name := by
  rw [List.map_map]
  exact List.map_congr_left (fun i _ => setDependencies_name i (f i))

theorem dt_setDependencies_name (t : DataType) (v : List String) :
    (t.setDependencies v).name = t.name := rfl

theorem dt_setDependencies_deps (t : DataType) (v : List String) :
    (t.setDependencies v).dependencies = v := rfl

theorem dt_setDependencies_twice (t : DataType) (d₁ d₂ : List String) :
    (t.setDependencies d₁).setDependencies d₂ = t.setDependencies d₂ := rfl

/-- C8 amended: the normalizer is idempotent on every model that does not
contain both an enumeration named `InitializeError` and one named
`InitializeErrorCodes` (on such a model the first pass renames the former
onto the latter, and the second pass's deduplication then removes one of
the two — the counterexample below). -/
theorem c8_normalizer_idempotent (d : Data)
    (h : ¬ ("InitializeError" ∈ d.enumerations.map Enumeration.name ∧
        "InitializeErrorCodes" ∈ d.enumerations.map Enumeration.name)) :
    cleanCode (cleanCode d) = cleanCode d := by
  have hA : cleanEnums (cleanEnums d.enumerations) = cleanEnums d.enumerations :=
    cleanEnums_idem d.enumerations h
  -- the interfaces produced by one pass survive the reserved-name filter
  have hB : cleanInterfacesKept (cleanCode d).interfaces = (cleanCode d).interfaces := by
    rw [cleanCode_interfaces, cleanInterfacesKept_eq, List.filter_eq_self]
    intro i hi
    obtain ⟨j, hj, rfl⟩ := List.mem_map.mp hi
    rw [setDependencies_name]
    rw [cleanInterfacesKept_eq] at hj
    simpa using List.of_mem_filter hj
  apply data_ext
  · rw [cleanCode_notifications, cleanCode_notifications]
  · rw [cleanCode_requests, cleanCode_requests]
  · rw [cleanCode_enums, cleanCode_enums]
    exact hA
  · -- types
    rw [cleanCode_types (cleanCode d), cleanCode_enums, hA, hB, cleanCode_interfaces,
      map_name_setDeps, cleanCode_types d]
    have hkept : cleanTypesKept
        ((cleanTypesKept d.types ((cleanEnums d.enumerations).map Enumeration.name ++
            (cleanInterfacesKept d.interfaces).map Interface.name)).map
          (fun t => t.setDependencies (t.dependencies.filter
            (fun n => !((cleanEnums d.enumerations).map Enumeration.name).contains n))))
        ((cleanEnums d.enumerations).map Enumeration.name ++
          (cleanInterfacesKept d.interfaces).map Interface.name) =
        (cleanTypesKept d.types ((cleanEnums d.enumerations).map Enumeration.name ++
            (cleanInterfacesKept d.interfaces).map Interface.name)).map
          (fun t => t.setDependencies (t.dependencies.filter
            (fun n => !((cleanEnums d.enumerations).map Enumeration.name).contains n))) := by
      rw [cleanTypesKept_eq]
      rw [List.filter_eq_self.mpr, List.filter_eq_self.mpr]
      · intro t ht
        obtain ⟨t₀, ht₀, rfl⟩ := List.mem_map.mp ht
        rw [cleanTypesKept_eq] at ht₀
        rw [dt_setDependencies_name]
        simpa using List.of_mem_filter (List.mem_of_mem_filter ht₀)
      · intro t ht
        have ht' := List.mem_of_mem_filter ht
        obtain ⟨t₀, ht₀, rfl⟩ := List.mem_map.mp ht'
        rw [cleanTypesKept_eq] at ht₀
        rw [dt_setDependencies_name]
        simpa using List.of_mem_filter ht₀
    rw [hkept, List.map_map]
    apply List.map_congr_left
    intro t _
    simp only [Function.comp_apply]
    rw [dt_setDependencies_deps, dt_setDependencies_twice, filter_self_idem]
  · -- interfaces
    rw [cleanCode_interfaces (cleanCode d), cleanCode_enums, hA, hB,
      cleanCode_interfaces d, List.map_map]
    apply List.map_congr_left
    intro i _
    simp only [Function.comp_apply]
    rw [setDependencies_deps, setDependencies_twice, filter_self_idem]

/-- C8 counterexample: on a model whose enumerations are named
`InitializeErrorCodes` and `InitializeError`, the first pass keeps both
(distinct names) and renames the second onto the first; the second pass's
deduplication then removes one of the two now-identically-named
enumerations, so applying the normalizer twice differs from applying it
once. -/
theorem c8_counterexample :
    cleanCode (cleanCode renameClashModel) ≠ cleanCode renameClashModel := by
  intro hc
  exact absurd (congrArg (fun d => d.enumerations.length) hc) (by decide)

/-- A model satisfying the amended C8 hypothesis, with an enum value and a
type alias exercised by the cleanup. -/
def c8WitnessModel : Data :=
  ⟨[], [], [⟨"TextDocumentSyncKind", false, [⟨"none", "0", ""⟩], ""⟩],
   [⟨"DocumentUri", "std::string", "", []⟩], []⟩

/-- Witness for C8's amended theorem. -/
theorem c8_witness :
    (¬ ("InitializeError" ∈ c8WitnessModel.enumerations.map Enumeration.name ∧
        "InitializeErrorCodes" ∈ c8WitnessModel.enumerations.map Enumeration.name))
    ∧ cleanCode (cleanCode c8WitnessModel) = cleanCode c8WitnessModel :=
  ⟨by decide, c8_normalizer_idempotent c8WitnessModel (by decide)⟩

end Specwriter
